import Mathlib

/-!
# rust-allocator-fix.c

The translation unit consists of two function definitions,

    __attribute__((weak))
    void __rust_no_alloc_shim_is_unstable(void) {}

    __attribute__((weak))
    void __rust_no_alloc_shim_is_unstable_v2(void) {}

This development embeds the translation unit (its declarations and the
execution of the two bodies) and states the properties of the shim over
that embedding.
-/

namespace RustAllocatorFix

/-! ## Declarations of the translation unit -/

/-- Function attributes that occur in the file. -/
inductive Attr where
  | weak
  deriving DecidableEq, Repr

/-- Types that occur in the file. -/
inductive CType where
  | void
  deriving DecidableEq, Repr

/-- Statements of a function body: a call of a function by name, or a return,
with or without a value. -/
inductive Stmt where
  | call (callee : String)
  | ret (value : Option Int)
  deriving DecidableEq, Repr

/-- A function definition at file scope. The parameter list (void) is the empty
list of parameters. The field guards lists the preprocessor conditionals
that enclose the definition, as pairs of a flag and the value the flag must
have for the definition to be compiled; a definition outside every
conditional has none. -/
structure FunDef where
  attrs : List Attr
  retType : CType
  name : String
  params : List CType
  body : List Stmt
  guards : List (String × Bool) := []
  deriving DecidableEq, Repr

/-- A translation unit: the source file and its function definitions in order. -/
structure TranslationUnit where
  file : String
  funs : List FunDef
  deriving DecidableEq, Repr

/-- The name of the first symbol, as spelled in the source (line 6). -/
def v1Name : String := "__rust_no_alloc_shim_is_unstable"

/-- The name of the second symbol, as spelled in the source (line 10). -/
def v2Name : String := "__rust_no_alloc_shim_is_unstable_v2"

/-- Lines 5 and 6: the weak definition of the first symbol, with an empty body. -/
def v1Def : FunDef :=
  { attrs := [Attr.weak], retType := CType.void, name := v1Name, params := [], body := [] }

/-- Lines 9 and 10: the weak definition of the second symbol, with an empty body. -/
def v2Def : FunDef :=
  { attrs := [Attr.weak], retType := CType.void, name := v2Name, params := [], body := [] }

/-- The whole file rust-allocator-fix.c. -/
def shim : TranslationUnit :=
  { file := "rust-allocator-fix.c", funs := [v1Def, v2Def] }

/-! ## Execution of a function body -/

/-- Abnormal outcomes of executing a body. -/
inductive Fault where
  | unknownFunction (callee : String)
  | failed (code : Int)
  deriving DecidableEq, Repr

/-- The functions a body may call, by name, as operations on the program state. -/
abbrev Env (σ : Type) := String → Option (σ → Except Fault σ)

/-- Execute the statements of a body in order, from state s. The outcome is the
value handed back, if any, and the state reached; a body that runs off its
end hands back no value. -/
def execBody {σ : Type} (env : Env σ) : List Stmt → σ → Except Fault (Option Int × σ)
  | [], s => Except.ok (none, s)
  | Stmt.ret v :: _, s => Except.ok (v, s)
  | Stmt.call c :: rest, s =>
    match env c with
    | none => Except.error (Fault.unknownFunction c)
    | some g =>
      match g s with
      | Except.ok s1 => execBody env rest s1
      | Except.error e => Except.error e

/-- Call a function that takes no argument: run its body. -/
def callFun {σ : Type} (env : Env σ) (f : FunDef) (s : σ) : Except Fault (Option Int × σ) :=
  execBody env f.body s

/-- The function of lines 5 and 6, as an operation on the program state. -/
def __rust_no_alloc_shim_is_unstable {σ : Type} (env : Env σ) (s : σ) :
    Except Fault (Option Int × σ) :=
  callFun env v1Def s

/-- The function of lines 9 and 10, as an operation on the program state. -/
def __rust_no_alloc_shim_is_unstable_v2 {σ : Type} (env : Env σ) (s : σ) :
    Except Fault (Option Int × σ) :=
  callFun env v2Def s

/-! ## Programs that call the two functions -/

/-- One step of a program: a call of the first function, a call of the second
function, or any other operation on the state. -/
inductive Step (σ : Type) where
  | v1
  | v2
  | op (f : σ → σ)

/-- Execute one step. The value a call hands back is dropped, as in a call
statement. -/
def Step.exec {σ : Type} (env : Env σ) : Step σ → σ → Except Fault σ
  | Step.v1, s =>
    match __rust_no_alloc_shim_is_unstable env s with
    | Except.ok r => Except.ok r.2
    | Except.error e => Except.error e
  | Step.v2, s =>
    match __rust_no_alloc_shim_is_unstable_v2 env s with
    | Except.ok r => Except.ok r.2
    | Except.error e => Except.error e
  | Step.op f, s => Except.ok (f s)

/-- Execute the steps in order. -/
def run {σ : Type} (env : Env σ) : List (Step σ) → σ → Except Fault σ
  | [], s => Except.ok s
  | st :: rest, s =>
    match st.exec env s with
    | Except.ok s1 => run env rest s1
    | Except.error e => Except.error e

/-- The operations of a program with the calls of the two functions removed. -/
def withoutCalls {σ : Type} : List (Step σ) → List (σ → σ)
  | [] => []
  | Step.v1 :: rest => withoutCalls rest
  | Step.v2 :: rest => withoutCalls rest
  | Step.op f :: rest => f :: withoutCalls rest

/-- Apply a sequence of state transformers in order. -/
def runOps {σ : Type} : List (σ → σ) → σ → σ
  | [], s => s
  | f :: rest, s => runOps rest (f s)

/-! ## The object file of the translation unit -/

/-- Binding of a defined symbol. -/
inductive Binding where
  | strong
  | weak
  deriving DecidableEq, Repr

/-- An entry of the symbol table: a defined name and its binding. -/
structure Symbol where
  name : String
  binding : Binding
  deriving DecidableEq, Repr

/-- An object file: the file it comes from, the symbols it defines and the names
it refers to without defining them. -/
structure ObjectFile where
  file : String
  defs : List Symbol
  refs : List String
  deriving DecidableEq, Repr

/-- A build configuration: the value of every preprocessor flag. -/
abbrev Config := String → Bool

/-- Whether a definition is compiled under a configuration: each enclosing
conditional must hold. -/
def FunDef.enabled (cfg : Config) (f : FunDef) : Bool :=
  f.guards.all fun g => cfg g.1 == g.2

/-- The binding of a definition: weak when it carries the weak attribute. -/
def FunDef.binding (f : FunDef) : Binding :=
  if Attr.weak ∈ f.attrs then Binding.weak else Binding.strong

/-- The symbol a definition gives: its name as spelled and its binding. -/
def FunDef.symbol (f : FunDef) : Symbol :=
  { name := f.name, binding := f.binding }

/-- The names a definition calls. -/
def FunDef.calls (f : FunDef) : List String :=
  f.body.filterMap fun st =>
    match st with
    | Stmt.call c => some c
    | Stmt.ret _ => none

/-- The object file of a translation unit under a configuration: one symbol per
compiled definition, and a reference per called name the unit does not define. -/
def compile (cfg : Config) (tu : TranslationUnit) : ObjectFile :=
  let fs := tu.funs.filter (FunDef.enabled cfg)
  { file := tu.file
    defs := fs.map FunDef.symbol
    refs := (fs.map FunDef.calls).flatten.filter fun c => !(fs.map FunDef.name).contains c }

/-- The names the translation unit defines under a configuration. -/
def definedSymbols (cfg : Config) (tu : TranslationUnit) : List String :=
  (compile cfg tu).defs.map Symbol.name

/-! ## Linking -/

/-- Modelled from the spec: the linker, the external collaborator that resolves
symbols; no code of it is in the repository. The glossary of the spec fixes
its rules: a weak definition is overridden when a strong definition of the
same name is present elsewhere in the link, and a referenced name with no
definition, weak or strong, is an undefined symbol. This function lists the
objects among the inputs that define the name n with binding b, one entry
per definition, in link order. -/
def definers (b : Binding) (n : String) (inputs : List ObjectFile) : List ObjectFile :=
  (inputs.map fun o => (o.defs.filter fun d => d = { name := n, binding := b }).map fun _ => o).flatten

/-- The outcome of resolving one name. -/
inductive Resolution where
  | bound (obj : ObjectFile)
  | undefined
  | duplicate
  deriving DecidableEq, Repr

/-- Modelled from the spec: symbol resolution of the linker for one name. A
single strong definition wins over every weak one; without a strong
definition the first weak one is used; without any definition the name is
undefined. Two strong definitions of one name clash: this is the
duplicate-definition error, which the spec leaves to the linker. -/
def resolve (inputs : List ObjectFile) (n : String) : Resolution :=
  match definers Binding.strong n inputs with
  | [o] => Resolution.bound o
  | _ :: _ :: _ => Resolution.duplicate
  | [] =>
    match definers Binding.weak n inputs with
    | o :: _ => Resolution.bound o
    | [] => Resolution.undefined

/-- Errors a link can end with. -/
inductive LinkError where
  | undefinedReference (n : String)
  | duplicateDefinition (n : String)
  deriving DecidableEq, Repr

/-- Every name defined by some input. -/
def definedNames (inputs : List ObjectFile) : List String :=
  (inputs.map fun o => o.defs.map Symbol.name).flatten

/-- Every name referred to by some input. -/
def referencedNames (inputs : List ObjectFile) : List String :=
  (inputs.map fun o => o.refs).flatten

/-- Modelled from the spec: the errors of a link. A defined name whose
resolution is a clash gives a duplicate-definition error, and a referenced
name whose resolution finds no definition gives an undefined-reference error. -/
def linkErrors (inputs : List ObjectFile) : List LinkError :=
  ((definedNames inputs).filter fun n => resolve inputs n = Resolution.duplicate).map
      LinkError.duplicateDefinition
    ++ ((referencedNames inputs).filter fun n => resolve inputs n = Resolution.undefined).map
      LinkError.undefinedReference

/-- Modelled from the spec: the link step. It succeeds when there is no error. -/
def link (inputs : List ObjectFile) : Except (List LinkError) Unit :=
  match linkErrors inputs with
  | [] => Except.ok ()
  | e :: es => Except.error (e :: es)

/-- The object file of the shim under a configuration. -/
def shimObject (cfg : Config) : ObjectFile := compile cfg shim

/-! ## The two functions as operations on the state -/

/-- C1: for every program state s (and whatever functions the environment
offers), calling __rust_no_alloc_shim_is_unstable on s and calling
__rust_no_alloc_shim_is_unstable_v2 on s each end normally, hand back no
value and leave the state exactly s. -/
theorem stubs_return_state_unchanged {σ : Type} (env : Env σ) (s : σ) :
    __rust_no_alloc_shim_is_unstable env s = Except.ok (none, s)
      ∧ __rust_no_alloc_shim_is_unstable_v2 env s = Except.ok (none, s) :=
  ⟨rfl, rfl⟩

theorem exec_v1 {σ : Type} (env : Env σ) (s : σ) : Step.exec env Step.v1 s = Except.ok s := rfl

theorem exec_v2 {σ : Type} (env : Env σ) (s : σ) : Step.exec env Step.v2 s = Except.ok s := rfl

theorem run_eq_runOps {σ : Type} (env : Env σ) (steps : List (Step σ)) (s : σ) :
    run env steps s = Except.ok (runOps (withoutCalls steps) s) := by
  induction steps generalizing s with
  | nil => rfl
  | cons st rest ih =>
    cases st with
    | v1 => simp only [run, exec_v1, withoutCalls, ih]
    | v2 => simp only [run, exec_v2, withoutCalls, ih]
    | op f => simp only [run, Step.exec, withoutCalls, runOps, ih]

/-- C6: a program behaves the same with or without calls of the two functions.
For every sequence ops of state transformers and every sequence steps got
from it by inserting calls of __rust_no_alloc_shim_is_unstable and of
__rust_no_alloc_shim_is_unstable_v2 at any positions (that is, removing the
calls from steps gives back ops), running steps from any state s ends
normally in the state that ops alone reaches from s. In particular each
function is idempotent, the two commute with each other, and each commutes
with every other operation f. -/
theorem calls_do_not_change_behaviour {σ : Type} (env : Env σ) (ops : List (σ → σ))
    (steps : List (Step σ)) (h : withoutCalls steps = ops) (s : σ) :
    run env steps s = Except.ok (runOps ops s)
      ∧ run env [Step.v1, Step.v1] s = run env [Step.v1] s
      ∧ run env [Step.v2, Step.v2] s = run env [Step.v2] s
      ∧ run env [Step.v1, Step.v2] s = run env [Step.v2, Step.v1] s
      ∧ (∀ f : σ → σ, run env [Step.v1, Step.op f] s = run env [Step.op f, Step.v1] s)
      ∧ (∀ f : σ → σ, run env [Step.v2, Step.op f] s = run env [Step.op f, Step.v2] s) := by
  subst h
  exact ⟨run_eq_runOps env steps s, rfl, rfl, rfl, fun _ => rfl, fun _ => rfl⟩

/-- Witness for C6: the program that adds 2 and then doubles, run from 5 with
four calls inserted, ends in 14 as it does without them. -/
theorem calls_do_not_change_behaviour_witness :
    withoutCalls [Step.v1, Step.op (fun n : Nat => n + 2), Step.v2, Step.v2,
        Step.op (fun n : Nat => n * 2), Step.v1]
        = [fun n : Nat => n + 2, fun n : Nat => n * 2]
      ∧ run (fun _ => none) [Step.v1, Step.op (fun n : Nat => n + 2), Step.v2, Step.v2,
        Step.op (fun n : Nat => n * 2), Step.v1] 5 = Except.ok 14 :=
  ⟨rfl, (calls_do_not_change_behaviour (fun _ => none)
    [fun n : Nat => n + 2, fun n : Nat => n * 2]
    [Step.v1, Step.op (fun n : Nat => n + 2), Step.v2, Step.v2,
      Step.op (fun n : Nat => n * 2), Step.v1] rfl 5).1⟩

/-! ## The symbol table of the shim -/

theorem shimObject_eq (cfg : Config) :
    shimObject cfg =
      { file := "rust-allocator-fix.c"
        defs := [{ name := v1Name, binding := Binding.weak },
                 { name := v2Name, binding := Binding.weak }]
        refs := [] } := rfl

/-- C2: under every build configuration the symbols defined by the translation
unit are exactly __rust_no_alloc_shim_is_unstable and
__rust_no_alloc_shim_is_unstable_v2, spelled character for character as
given here; a name is defined if and only if it is one of the two; and no
definition of the file stands inside a preprocessor conditional, so each is
compiled whatever the configuration. -/
theorem defined_symbols_exactly_two (cfg : Config) :
    definedSymbols cfg shim
        = ["__rust_no_alloc_shim_is_unstable", "__rust_no_alloc_shim_is_unstable_v2"]
      ∧ (∀ n : String, n ∈ definedSymbols cfg shim ↔
          n = "__rust_no_alloc_shim_is_unstable" ∨ n = "__rust_no_alloc_shim_is_unstable_v2")
      ∧ (∀ f ∈ shim.funs, f.guards = [] ∧ f.enabled cfg = true) := by
  have h : definedSymbols cfg shim
      = ["__rust_no_alloc_shim_is_unstable", "__rust_no_alloc_shim_is_unstable_v2"] := rfl
  refine ⟨h, ?_, ?_⟩
  · intro n
    rw [h]
    simp
  · intro f hf
    simp only [shim, List.mem_cons, List.mem_singleton, List.not_mem_nil, or_false] at hf
    rcases hf with rfl | rfl
    · exact ⟨rfl, rfl⟩
    · exact ⟨rfl, rfl⟩

/-- C3: every symbol the shim defines has weak binding. Under every build
configuration both names are in the symbol table of the shim with weak
binding, every entry of the table is weak, and no name is defined strong. -/
theorem shim_symbols_all_weak (cfg : Config) :
    ({ name := v1Name, binding := Binding.weak } : Symbol) ∈ (shimObject cfg).defs
      ∧ ({ name := v2Name, binding := Binding.weak } : Symbol) ∈ (shimObject cfg).defs
      ∧ (∀ sym ∈ (shimObject cfg).defs, sym.binding = Binding.weak)
      ∧ (∀ n : String, ({ name := n, binding := Binding.strong } : Symbol) ∉ (shimObject cfg).defs)
      ∧ (∀ f ∈ shim.funs, Attr.weak ∈ f.attrs) := by
  rw [shimObject_eq]
  refine ⟨by simp, by simp, ?_, ?_, ?_⟩
  · intro sym hsym
    simp only [List.mem_cons, List.mem_singleton, List.not_mem_nil, or_false] at hsym
    rcases hsym with rfl | rfl <;> rfl
  · intro n hmem
    simp at hmem
  · intro f hf
    simp only [shim, List.mem_cons, List.mem_singleton, List.not_mem_nil, or_false] at hf
    rcases hf with rfl | rfl <;> simp [v1Def, v2Def]

/-- C7: the two names the shim defines are distinct strings, the second being
the first followed by _v2, and under every build configuration the
translation unit defines each of the two names exactly once: the list of
defined names has no repetition. -/
theorem shim_names_distinct_defined_once (cfg : Config) :
    v1Name ≠ v2Name
      ∧ v2Name = v1Name ++ "_v2"
      ∧ (definedSymbols cfg shim).count v1Name = 1
      ∧ (definedSymbols cfg shim).count v2Name = 1
      ∧ (definedSymbols cfg shim).Nodup
      ∧ ((shim.funs.filter fun f => f.name = v1Name).length = 1)
      ∧ ((shim.funs.filter fun f => f.name = v2Name).length = 1) := by
  have h : definedSymbols cfg shim = [v1Name, v2Name] := rfl
  rw [h]
  refine ⟨by decide, by decide, by decide, by decide, by decide, by decide, by decide⟩

/-! ## Linking with the shim -/

theorem definers_nil (b : Binding) (n : String) : definers b n [] = [] := rfl

theorem definers_cons (b : Binding) (n : String) (o : ObjectFile) (rest : List ObjectFile) :
    definers b n (o :: rest)
      = ((o.defs.filter fun d => d = { name := n, binding := b }).map fun _ => o)
          ++ definers b n rest := by
  simp [definers]

theorem definers_append (b : Binding) (n : String) (xs ys : List ObjectFile) :
    definers b n (xs ++ ys) = definers b n xs ++ definers b n ys := by
  simp [definers]

theorem mem_definers (b : Binding) (n : String) (inputs : List ObjectFile) (o : ObjectFile) :
    o ∈ definers b n inputs ↔ o ∈ inputs ∧ ({ name := n, binding := b } : Symbol) ∈ o.defs := by
  induction inputs with
  | nil => simp [definers]
  | cons x rest ih =>
    rw [definers_cons, List.mem_append, ih]
    simp only [List.mem_map, List.mem_filter, decide_eq_true_eq, List.mem_cons]
    constructor
    · rintro (⟨d, ⟨hd, rfl⟩, rfl⟩ | ⟨h1, h2⟩)
      · exact ⟨Or.inl rfl, hd⟩
      · exact ⟨Or.inr h1, h2⟩
    · rintro ⟨rfl | h1, h2⟩
      · exact Or.inl ⟨_, ⟨h2, rfl⟩, rfl⟩
      · exact Or.inr ⟨h1, h2⟩

theorem definers_strong_shim (cfg : Config) (n : String) (rest : List ObjectFile) :
    definers Binding.strong n (shimObject cfg :: rest) = definers Binding.strong n rest := by
  rw [definers_cons, shimObject_eq]
  simp

theorem definers_strong_without_shim (cfg : Config) (n : String) (inputs : List ObjectFile) :
    definers Binding.strong n (inputs.filter fun o => o ≠ shimObject cfg)
      = definers Binding.strong n inputs := by
  induction inputs with
  | nil => rfl
  | cons x rest ih =>
    by_cases hx : x = shimObject cfg
    · subst hx
      rw [definers_strong_shim]
      simpa using ih
    · rw [List.filter_cons_of_pos (by simpa using hx), definers_cons, definers_cons, ih]

theorem mem_definedNames (n : String) (inputs : List ObjectFile) :
    n ∈ definedNames inputs ↔ ∃ o ∈ inputs, ∃ b, ({ name := n, binding := b } : Symbol) ∈ o.defs := by
  simp only [definedNames, List.mem_flatten, List.mem_map]
  constructor
  · rintro ⟨l, ⟨o, ho, rfl⟩, hn⟩
    rw [List.mem_map] at hn
    obtain ⟨d, hd, rfl⟩ := hn
    exact ⟨o, ho, d.binding, hd⟩
  · rintro ⟨o, ho, b, hb⟩
    exact ⟨_, ⟨o, ho, rfl⟩, List.mem_map.mpr ⟨_, hb, rfl⟩⟩

theorem resolve_duplicate_iff (inputs : List ObjectFile) (n : String) :
    resolve inputs n = Resolution.duplicate ↔ 2 ≤ (definers Binding.strong n inputs).length := by
  unfold resolve
  split
  · rename_i h
    simp [h]
  · rename_i h
    simp [h]
  · rename_i h
    split <;> simp [h]

theorem resolve_undefined_iff (inputs : List ObjectFile) (n : String) :
    resolve inputs n = Resolution.undefined ↔
      definers Binding.strong n inputs = [] ∧ definers Binding.weak n inputs = [] := by
  unfold resolve
  split
  · simp [*]
  · simp [*]
  · split <;> simp [*]

theorem mem_linkErrors_duplicate (inputs : List ObjectFile) (n : String) :
    LinkError.duplicateDefinition n ∈ linkErrors inputs ↔
      n ∈ definedNames inputs ∧ resolve inputs n = Resolution.duplicate := by
  simp [linkErrors]

theorem mem_linkErrors_undefined (inputs : List ObjectFile) (n : String) :
    LinkError.undefinedReference n ∈ linkErrors inputs ↔
      n ∈ referencedNames inputs ∧ resolve inputs n = Resolution.undefined := by
  simp [linkErrors]

theorem mem_linkErrors_duplicate_iff (inputs : List ObjectFile) (n : String) :
    LinkError.duplicateDefinition n ∈ linkErrors inputs ↔
      2 ≤ (definers Binding.strong n inputs).length := by
  rw [mem_linkErrors_duplicate, resolve_duplicate_iff]
  constructor
  · exact fun h => h.2
  · intro h
    refine ⟨?_, h⟩
    cases hd : definers Binding.strong n inputs with
    | nil => simp [hd] at h
    | cons x xs =>
      have hx : x ∈ definers Binding.strong n inputs := by simp [hd]
      rw [mem_definers] at hx
      exact (mem_definedNames n inputs).mpr ⟨x, hx.1, Binding.strong, hx.2⟩

theorem not_mem_definedNames_iff (inputs : List ObjectFile) (n : String) :
    n ∉ definedNames inputs ↔
      definers Binding.strong n inputs = [] ∧ definers Binding.weak n inputs = [] := by
  rw [mem_definedNames]
  simp only [List.eq_nil_iff_forall_not_mem, mem_definers]
  constructor
  · intro h
    exact ⟨fun o ho => h ⟨o, ho.1, _, ho.2⟩, fun o ho => h ⟨o, ho.1, _, ho.2⟩⟩
  · rintro ⟨hs, hw⟩ ⟨o, ho, b, hb⟩
    cases b with
    | strong => exact hs o ⟨ho, hb⟩
    | weak => exact hw o ⟨ho, hb⟩

theorem shim_not_strong (cfg : Config) (n : String) :
    ({ name := n, binding := Binding.strong } : Symbol) ∉ (shimObject cfg).defs := by
  rw [shimObject_eq]
  simp

theorem shim_weak (cfg : Config) (n : String) (hn : n = v1Name ∨ n = v2Name) :
    ({ name := n, binding := Binding.weak } : Symbol) ∈ (shimObject cfg).defs := by
  rw [shimObject_eq]
  rcases hn with rfl | rfl <;> simp

theorem link_ok_iff (inputs : List ObjectFile) :
    link inputs = Except.ok () ↔ linkErrors inputs = [] := by
  unfold link
  split <;> simp [*]

theorem length_filter_eq_count (sym : Symbol) (l : List Symbol) :
    (l.filter fun d => d = sym).length = l.count sym := by
  induction l with
  | nil => rfl
  | cons x rest ih =>
    by_cases hx : x = sym
    · subst hx
      simp [ih]
    · have hx1 : ¬ (x == sym) = true := by simpa using hx
      rw [List.filter_cons_of_neg (by simpa using hx), ih, List.count_cons, if_neg hx1]
      simp

theorem definers_of_only (b : Binding) (n : String) (o : ObjectFile) (inputs : List ObjectFile)
    (honly : ∀ x ∈ inputs, ({ name := n, binding := b } : Symbol) ∈ x.defs → x = o)
    (hdefs : o.defs.count { name := n, binding := b } = 1) :
    definers b n inputs = List.replicate (inputs.count o) o := by
  induction inputs with
  | nil => rfl
  | cons x rest ih =>
    have ih1 := ih fun y hy => honly y (List.mem_cons_of_mem _ hy)
    rw [definers_cons, ih1]
    by_cases hx : x = o
    · subst hx
      have hlen : (x.defs.filter fun d => d = ({ name := n, binding := b } : Symbol)).length = 1 := by
        rw [length_filter_eq_count, hdefs]
      have hmap : ((x.defs.filter fun d => d = ({ name := n, binding := b } : Symbol)).map
          fun _ => x) = [x] := by
        obtain ⟨d, hd⟩ := List.length_eq_one.mp hlen
        rw [hd]
        rfl
      rw [hmap, List.count_cons_self, List.replicate_succ]
      rfl
    · have hnot : ({ name := n, binding := b } : Symbol) ∉ x.defs :=
        fun hmem => hx (honly x (List.mem_cons_self _ _) hmem)
      have hnil : (x.defs.filter fun d => d = ({ name := n, binding := b } : Symbol)) = [] := by
        rw [List.filter_eq_nil_iff]
        intro d hd hds
        have hds1 : d = ({ name := n, binding := b } : Symbol) := by simpa using hds
        exact hnot (hds1 ▸ hd)
      rw [hnil, List.count_cons_of_ne (Ne.symm hx)]
      rfl

/-- C4, as amended: a strong definition elsewhere in the link wins over the
shim. For every list of link inputs that contains the object of the shim
and an object o with a strong definition of n, where n is
__rust_no_alloc_shim_is_unstable or __rust_no_alloc_shim_is_unstable_v2:
o is not the shim; the weak definition of n by the shim is among the
inputs, yet n is never bound to the shim and is never left undefined;
whatever object n is bound to is an input with a strong definition of n;
every duplicate-definition error of the link is already an error of the
link of the inputs without the shim, so the shim causes none; and when
the strong definition of n in o is the only one in the link (no other
input defines n strong, o is given once and defines n once), n is bound to
o and the link has no duplicate-definition error for n. -/
theorem strong_definition_overrides_shim (cfg : Config) (inputs : List ObjectFile)
    (o : ObjectFile) (n : String)
    (hshim : shimObject cfg ∈ inputs) (ho : o ∈ inputs)
    (hn : n = v1Name ∨ n = v2Name)
    (hstrong : ({ name := n, binding := Binding.strong } : Symbol) ∈ o.defs) :
    o ≠ shimObject cfg
      ∧ shimObject cfg ∈ definers Binding.weak n inputs
      ∧ resolve inputs n ≠ Resolution.bound (shimObject cfg)
      ∧ resolve inputs n ≠ Resolution.undefined
      ∧ (∀ o1, resolve inputs n = Resolution.bound o1 →
          o1 ∈ inputs ∧ ({ name := n, binding := Binding.strong } : Symbol) ∈ o1.defs)
      ∧ (∀ m, LinkError.duplicateDefinition m ∈ linkErrors inputs →
          LinkError.duplicateDefinition m
            ∈ linkErrors (inputs.filter fun x => x ≠ shimObject cfg))
      ∧ ((∀ x ∈ inputs, ({ name := n, binding := Binding.strong } : Symbol) ∈ x.defs → x = o) →
          inputs.count o = 1 →
          o.defs.count { name := n, binding := Binding.strong } = 1 →
          resolve inputs n = Resolution.bound o
            ∧ LinkError.duplicateDefinition n ∉ linkErrors inputs) := by
  have hmem : o ∈ definers Binding.strong n inputs := (mem_definers _ _ _ _).mpr ⟨ho, hstrong⟩
  have hbound : ∀ o1, resolve inputs n = Resolution.bound o1 →
      o1 ∈ inputs ∧ ({ name := n, binding := Binding.strong } : Symbol) ∈ o1.defs := by
    intro o1 h1
    unfold resolve at h1
    split at h1
    · rename_i x hx
      have hx1 : x ∈ definers Binding.strong n inputs := by simp [hx]
      cases h1
      exact (mem_definers _ _ _ _).mp hx1
    · cases h1
    · rename_i hx
      simp [hx] at hmem
  refine ⟨?_, ?_, ?_, ?_, hbound, ?_, ?_⟩
  · rintro rfl
    exact shim_not_strong cfg n hstrong
  · exact (mem_definers _ _ _ _).mpr ⟨hshim, shim_weak cfg n hn⟩
  · intro h
    exact shim_not_strong cfg n (hbound _ h).2
  · rw [Ne, resolve_undefined_iff]
    rintro ⟨hs, _⟩
    simp [hs] at hmem
  · intro m hm
    rw [mem_linkErrors_duplicate_iff] at hm ⊢
    rw [definers_strong_without_shim]
    exact hm
  · intro honly hcount hdefs
    have huniq : definers Binding.strong n inputs = [o] := by
      rw [definers_of_only Binding.strong n o inputs honly hdefs, hcount]
      rfl
    refine ⟨?_, ?_⟩
    · simp [resolve, huniq]
    · rw [mem_linkErrors_duplicate_iff, huniq]
      simp

/-- Witness for C4: the shim linked with an object alloc.o that defines
__rust_no_alloc_shim_is_unstable strong; the name is bound to alloc.o. -/
theorem strong_definition_overrides_shim_witness :
    shimObject (fun _ => false)
        ∈ [shimObject (fun _ => false),
            { file := "alloc.o", defs := [{ name := v1Name, binding := Binding.strong }],
              refs := [] }]
      ∧ resolve [shimObject (fun _ => false),
            { file := "alloc.o", defs := [{ name := v1Name, binding := Binding.strong }],
              refs := [] }] v1Name
          = Resolution.bound
            { file := "alloc.o", defs := [{ name := v1Name, binding := Binding.strong }],
              refs := [] }
      ∧ LinkError.duplicateDefinition v1Name
          ∉ linkErrors [shimObject (fun _ => false),
            { file := "alloc.o", defs := [{ name := v1Name, binding := Binding.strong }],
              refs := [] }] :=
  ⟨List.mem_cons_self _ _,
    (strong_definition_overrides_shim (fun _ => false)
      [shimObject (fun _ => false),
        { file := "alloc.o", defs := [{ name := v1Name, binding := Binding.strong }],
          refs := [] }]
      { file := "alloc.o", defs := [{ name := v1Name, binding := Binding.strong }], refs := [] }
      v1Name (List.mem_cons_self _ _) (by simp) (Or.inl rfl) (by simp)).2.2.2.2.2.2
      (by decide) (by decide) (by decide)⟩

/-- Counterexample to C4 as stated: the shim linked with two objects a.o and b.o
that each define __rust_no_alloc_shim_is_unstable strong. The inputs
contain the shim and another object, a.o, with a strong definition of the
name, yet the name is not bound to a.o: its resolution is a clash, and the
link fails with a duplicate-definition error. -/
theorem strong_definition_overrides_shim_counterexample :
    shimObject (fun _ => false)
        ∈ [shimObject (fun _ => false),
            { file := "a.o", defs := [{ name := v1Name, binding := Binding.strong }],
              refs := [] },
            { file := "b.o", defs := [{ name := v1Name, binding := Binding.strong }],
              refs := [] }]
      ∧ ({ file := "a.o", defs := [{ name := v1Name, binding := Binding.strong }],
            refs := [] } : ObjectFile)
          ∈ [shimObject (fun _ => false),
            { file := "a.o", defs := [{ name := v1Name, binding := Binding.strong }],
              refs := [] },
            { file := "b.o", defs := [{ name := v1Name, binding := Binding.strong }],
              refs := [] }]
      ∧ ({ file := "a.o", defs := [{ name := v1Name, binding := Binding.strong }],
            refs := [] } : ObjectFile) ≠ shimObject (fun _ => false)
      ∧ resolve [shimObject (fun _ => false),
            { file := "a.o", defs := [{ name := v1Name, binding := Binding.strong }],
              refs := [] },
            { file := "b.o", defs := [{ name := v1Name, binding := Binding.strong }],
              refs := [] }] v1Name
          = Resolution.duplicate
      ∧ resolve [shimObject (fun _ => false),
            { file := "a.o", defs := [{ name := v1Name, binding := Binding.strong }],
              refs := [] },
            { file := "b.o", defs := [{ name := v1Name, binding := Binding.strong }],
              refs := [] }] v1Name
          ≠ Resolution.bound
            { file := "a.o", defs := [{ name := v1Name, binding := Binding.strong }],
              refs := [] }
      ∧ LinkError.duplicateDefinition v1Name
          ∈ linkErrors [shimObject (fun _ => false),
            { file := "a.o", defs := [{ name := v1Name, binding := Binding.strong }],
              refs := [] },
            { file := "b.o", defs := [{ name := v1Name, binding := Binding.strong }],
              refs := [] }]
      ∧ link [shimObject (fun _ => false),
            { file := "a.o", defs := [{ name := v1Name, binding := Binding.strong }],
              refs := [] },
            { file := "b.o", defs := [{ name := v1Name, binding := Binding.strong }],
              refs := [] }]
          ≠ Except.ok () := by
  refine ⟨by decide, by decide, by decide, by decide, by decide, by decide, ?_⟩
  rw [Ne, link_ok_iff]
  decide

theorem referencedNames_with_shim (cfg : Config) (pre post : List ObjectFile) :
    referencedNames (pre ++ shimObject cfg :: post) = referencedNames (pre ++ post) := by
  simp [referencedNames, shimObject_eq]

theorem definers_strong_with_shim (cfg : Config) (n : String) (pre post : List ObjectFile) :
    definers Binding.strong n (pre ++ shimObject cfg :: post)
      = definers Binding.strong n (pre ++ post) := by
  rw [definers_append, definers_strong_shim, definers_append]

/-- C5: the shim turns an undefined-reference failure into a clean link. Let
the program P be the objects pre followed by post, and let every name that
P refers to without defining be __rust_no_alloc_shim_is_unstable or
__rust_no_alloc_shim_is_unstable_v2. Then linking P together with the
object of the shim, put at any position, leaves no undefined reference,
and the link succeeds when P has no duplicate definition of its own;
whereas if P refers to one of the two names and no object of P defines it,
linking P alone fails with an undefined-reference error for that name. -/
theorem shim_resolves_undefined_references (cfg : Config) (pre post : List ObjectFile)
    (honly : ∀ n ∈ referencedNames (pre ++ post), n ∉ definedNames (pre ++ post) →
      n = v1Name ∨ n = v2Name) :
    (∀ n, LinkError.undefinedReference n ∉ linkErrors (pre ++ shimObject cfg :: post))
      ∧ ((∀ m, LinkError.duplicateDefinition m ∉ linkErrors (pre ++ post)) →
          link (pre ++ shimObject cfg :: post) = Except.ok ())
      ∧ (∀ n, (n = v1Name ∨ n = v2Name) → n ∈ referencedNames (pre ++ post) →
          n ∉ definedNames (pre ++ post) →
          LinkError.undefinedReference n ∈ linkErrors (pre ++ post)
            ∧ link (pre ++ post) = Except.error (linkErrors (pre ++ post))
            ∧ link (pre ++ post) ≠ Except.ok ()) := by
  have hundef : ∀ n, LinkError.undefinedReference n
      ∉ linkErrors (pre ++ shimObject cfg :: post) := by
    intro n hmem
    rw [mem_linkErrors_undefined, referencedNames_with_shim, resolve_undefined_iff] at hmem
    obtain ⟨href, hs, hw⟩ := hmem
    rw [definers_strong_with_shim] at hs
    by_cases hdef : n ∈ definedNames (pre ++ post)
    · rw [← not_not (a := n ∈ definedNames (pre ++ post)), not_mem_definedNames_iff] at hdef
      apply hdef
      refine ⟨hs, ?_⟩
      rw [definers_append, definers_cons] at hw
      rw [definers_append]
      simp only [List.append_eq_nil] at hw ⊢
      exact ⟨hw.1, hw.2.2⟩
    · have hshim : shimObject cfg ∈ definers Binding.weak n (pre ++ shimObject cfg :: post) :=
        (mem_definers _ _ _ _).mpr ⟨by simp, shim_weak cfg n (honly n href hdef)⟩
      simp [hw] at hshim
  refine ⟨hundef, ?_, ?_⟩
  · intro hdup
    rw [link_ok_iff, List.eq_nil_iff_forall_not_mem]
    intro e he
    cases e with
    | undefinedReference n => exact hundef n he
    | duplicateDefinition m =>
      apply hdup m
      rw [mem_linkErrors_duplicate_iff] at he ⊢
      rw [definers_strong_with_shim] at he
      exact he
  · intro n _ href hdef
    have herr : LinkError.undefinedReference n ∈ linkErrors (pre ++ post) := by
      rw [mem_linkErrors_undefined, resolve_undefined_iff]
      exact ⟨href, (not_mem_definedNames_iff _ _).mp hdef⟩
    have hne : linkErrors (pre ++ post) ≠ [] := List.ne_nil_of_mem herr
    refine ⟨herr, ?_, ?_⟩
    · unfold link
      split
      · rename_i h
        exact absurd h hne
      · rename_i h
        rw [h]
    · rw [Ne, link_ok_iff]
      exact hne

/-- Witness for C5: a program main.o that refers to
__rust_no_alloc_shim_is_unstable and defines only main. With the shim the
link succeeds; alone it fails with an undefined reference. -/
theorem shim_resolves_undefined_references_witness :
    link ([{ file := "main.o", defs := [{ name := "main", binding := Binding.strong }],
              refs := [v1Name] }] ++ shimObject (fun _ => false) :: []) = Except.ok ()
      ∧ link ([{ file := "main.o", defs := [{ name := "main", binding := Binding.strong }],
                  refs := [v1Name] }] ++ [])
          = Except.error [LinkError.undefinedReference v1Name] :=
  have h := shim_resolves_undefined_references (fun _ => false)
    [{ file := "main.o", defs := [{ name := "main", binding := Binding.strong }],
        refs := [v1Name] }] []
    (by decide)
  ⟨h.2.1 (by
      intro m hm
      rw [mem_linkErrors_duplicate_iff] at hm
      simp only [List.append_nil, definers, List.map_cons, List.map_nil, List.filter_cons,
        List.filter_nil, List.flatten_cons, List.flatten_nil] at hm
      split at hm <;> simp at hm),
    (h.2.2 v1Name (Or.inl rfl) (by decide) (by decide)).2.1.trans rfl⟩

end RustAllocatorFix
